import Mathlib

/-!
Shallow embedding of the spx-levels technical-level pipeline
(src/spx_levels): level grouping, classification, confluence strength,
extrema detection, Fibonacci retracement, psychological levels,
volume-by-price, volatility advisory and moving-average levels.
Prices are modelled as rationals; a float NaN is modelled as `none` in
`Option ℚ`; a Python exception is modelled as `none` at the result type.
-/

namespace SpxLevels

/-! ### Python substring test (`pat in s`) on strings -/

/-- Boolean test that the first character list is an initial segment of the second. -/
def startsWithSeq : List Char → List Char → Bool
  | [], _ => true
  | _ :: _, [] => false
  | p :: ps, c :: cs => p == c && startsWithSeq ps cs

/-- Boolean test that the first character list occurs contiguously inside the second. -/
def containsSeq (pat : List Char) : List Char → Bool
  | [] => startsWithSeq pat []
  | c :: cs => startsWithSeq pat (c :: cs) || containsSeq pat cs

/-- Python `pat in s` for strings: `pat` occurs as a contiguous substring of `s`. -/
def containsStr (s pat : String) : Bool := containsSeq pat.data s.data

/-! ### LevelStrength.calculate_strength (src/spx_levels/levels/strength.py)

A level is a `(price, sourceLabel)` pair, a grouped level is
`(representativePrice, sourceLabels)`.  The Python dict
`level_strength` is modelled as an insertion-ordered association list
with overwrite-on-existing-key semantics, exactly as a Python dict
behaves under repeated assignment. -/

/-- Extra-weight test from the strength loop: the source label mentions
"Volume" or "price action". -/
def srcBonus (src : String) : Bool :=
  containsStr src "Volume" || containsStr src "price action"

/-- Number of Fibonacci-sourced members: `sum(1 for src in sources if "Fibonacci" in src)`. -/
def fibCountOf (sources : List String) : ℕ :=
  (sources.filter (fun src => containsStr src "Fibonacci")).length

/-- Strength of one group, mirroring the loop in `calculate_strength`:
start from `len(sources)`, add 1 for each Volume / price-action member,
then add `fib_count - 1` when `fib_count > 1`. -/
def strengthOf (sources : List String) : ℕ :=
  let s0 := sources.length
  let s1 := sources.foldl (fun acc src => if srcBonus src then acc + 1 else acc) s0
  if 1 < fibCountOf sources then s1 + (fibCountOf sources - 1) else s1

/-- Python dict assignment `d[k] = v`: overwrite in place when the key is
present, append otherwise. -/
def dictInsert (d : List (ℚ × ℕ)) (k : ℚ) (v : ℕ) : List (ℚ × ℕ) :=
  if d.any (fun e => e.1 == k) then
    d.map (fun e => if e.1 == k then (k, v) else e)
  else
    d ++ [(k, v)]

/-- Python dict lookup `d[k]`, `none` standing for a `KeyError`. -/
def dictLookup (d : List (ℚ × ℕ)) (k : ℚ) : Option ℕ :=
  (d.find? (fun e => e.1 == k)).map (fun e => e.2)

/-- `LevelStrength.calculate_strength`: one dict entry per group,
keyed by the group's representative price. -/
def calculate_strength (grouped : List (ℚ × List String)) : List (ℚ × ℕ) :=
  grouped.foldl (fun d g => dictInsert d g.1 (strengthOf g.2)) []

/-- `LevelStrength.sort_by_strength`: stable descending sort by looked-up
strength; `none` models the `KeyError` raised when a level's price is
missing from the strength dict. -/
def sort_by_strength (levels : List (ℚ × List String)) (d : List (ℚ × ℕ)) :
    Option (List (ℚ × List String)) :=
  if levels.all (fun l => (dictLookup d l.1).isSome) then
    some (levels.mergeSort (fun a b =>
      ((dictLookup d b.1).getD 0) ≤ ((dictLookup d a.1).getD 0)))
  else
    none

/-! ### TechnicalLevels._group_levels and _classify_levels
(src/spx_levels/levels/technical_levels.py) -/

/-- The merge test of `_group_levels`:
`abs(current_level - prev_level) / prev_level < threshold`. -/
def closeLevel (threshold prev cur : ℚ) : Prop :=
  |cur - prev| / prev < threshold

instance (t p c : ℚ) : Decidable (closeLevel t p c) :=
  inferInstanceAs (Decidable (|c - p| / p < t))

/-- The grouping loop: `cur` is the open group (never empty), each next
level joins it when within `threshold` of the *last* member of `cur`,
otherwise `cur` is flushed and a fresh group is opened. -/
def groupGo (threshold : ℚ) (cur : List (ℚ × String)) :
    List (ℚ × String) → List (List (ℚ × String))
  | [] => [cur]
  | x :: xs =>
    if closeLevel threshold (cur.getLastD (0, "")).1 x.1 then
      groupGo threshold (cur ++ [x]) xs
    else
      cur :: groupGo threshold [x] xs

/-- The partition of the sorted level list into consecutive groups, as
built by `_group_levels`. -/
def groupRuns (threshold : ℚ) : List (ℚ × String) → List (List (ℚ × String))
  | [] => []
  | x :: xs => groupGo threshold [x] xs

/-- `TechnicalLevels._group_levels`: each run is collapsed to its
arithmetic-mean price and the list of its source labels. -/
def group_levels (threshold : ℚ) (allLevels : List (ℚ × String)) :
    List (ℚ × List String) :=
  (groupRuns threshold allLevels).map
    (fun g => ((g.map (fun l => l.1)).sum / g.length, g.map (fun l => l.2)))

/-- Support side of `_classify_levels`: groups with `level < current_price`. -/
def classifySupport (grouped : List (ℚ × List String)) (currentPrice : ℚ) :
    List (ℚ × List String) :=
  grouped.filter (fun g => decide (g.1 < currentPrice))

/-- Resistance side of `_classify_levels`: groups with `level >= current_price`. -/
def classifyResistance (grouped : List (ℚ × List String)) (currentPrice : ℚ) :
    List (ℚ × List String) :=
  grouped.filter (fun g => decide (currentPrice ≤ g.1))

/-! ### ExtremaDetector (src/spx_levels/analysis/price_action.py)

`identify_swing_points` runs `scipy.signal.argrelextrema` with
comparator `np.greater` / `np.less` and the default boundary mode
`clip`: out-of-range comparison indices are clamped into
`[0, n-1]`. -/

/-- Index clamping of `np.take(..., mode=clip)`. -/
def clipIdx (n : ℕ) (j : ℤ) : ℕ := (max 0 (min j ((n : ℤ) - 1))).toNat

/-- Element access at a clamped signed index. -/
def getClip (xs : List ℚ) (j : ℤ) : ℚ := xs.getD (clipIdx xs.length j) 0

/-- `argrelextrema(xs, np.greater, order=k)` flag at index `i`: for every
shift `1..k` the value at `i` strictly exceeds the values at the clamped
indices `i&shift` on both sides. -/
def flaggedGT (xs : List ℚ) (k i : ℕ) : Bool :=
  (List.range k).all fun s =>
    decide (getClip xs ((i : ℤ) + ((s : ℤ) + 1)) < xs.getD i 0) &&
    decide (getClip xs ((i : ℤ) - ((s : ℤ) + 1)) < xs.getD i 0)

/-- `argrelextrema(xs, np.less, order=k)` flag at index `i`. -/
def flaggedLT (xs : List ℚ) (k i : ℕ) : Bool :=
  (List.range k).all fun s =>
    decide (xs.getD i 0 < getClip xs ((i : ℤ) + ((s : ℤ) + 1))) &&
    decide (xs.getD i 0 < getClip xs ((i : ℤ) - ((s : ℤ) + 1)))

/-- Indices returned by `argrelextrema(xs, np.greater, order=k)`. -/
def relExtremaGT (xs : List ℚ) (k : ℕ) : List ℕ :=
  (List.range xs.length).filter (flaggedGT xs k)

/-- Indices returned by `argrelextrema(xs, np.less, order=k)`. -/
def relExtremaLT (xs : List ℚ) (k : ℕ) : List ℕ :=
  (List.range xs.length).filter (flaggedLT xs k)

/-- Swing-high indices of `identify_swing_points` over the smoothed
sequence: empty when `len(df) <= 2 * order + 1`, else the argrelextrema
maxima. -/
def identify_swing_high_idx (smoothed : List ℚ) (k : ℕ) : List ℕ :=
  if smoothed.length ≤ 2 * k + 1 then [] else relExtremaGT smoothed k

/-- Swing-low indices of `identify_swing_points` over the smoothed
sequence. -/
def identify_swing_low_idx (smoothed : List ℚ) (k : ℕ) : List ℕ :=
  if smoothed.length ≤ 2 * k + 1 then [] else relExtremaLT smoothed k

/-! ### FibonacciAnalysis (src/spx_levels/analysis/fibonacci.py) -/

/-- One swing point: a timestamp and its price (`High` for swing highs,
`Low` for swing lows). -/
structure Swing where
  date : ℕ
  price : ℚ

/-- The Fibonacci retracement ratios of the source. -/
def fibRatios : List ℚ := [0, 236 / 1000, 382 / 1000, 1 / 2, 618 / 1000, 786 / 1000, 1]

/-- Ratio labels: `int(ratio*100)` with a percent sign except at the 0 and
1 endpoints. -/
def fibRatioLabels : List String :=
  fibRatios.map fun r =>
    if r = 0 ∨ r = 1 then toString ⌊r * 100⌋ else toString ⌊r * 100⌋ ++ "%"

/-- `nlargest(_, 'Date')` ordering: stable sort by descending timestamp. -/
def sortByDateDesc (pts : List Swing) : List Swing :=
  pts.mergeSort (fun a b => decide (b.date ≤ a.date))

/-- Trend test of `calculate_fibonacci_levels`: the single most recent
swing overall is a high (`latest_high_date > latest_low_date`; a side
with no swings contributes `None`). -/
def trendIsHigh (recentHighs recentLows : List Swing) : Bool :=
  match recentHighs.head?, recentLows.head? with
  | some h, some l => decide (l.date < h.date)
  | some _, none => true
  | _, _ => false

/-- `FibonacciAnalysis.calculate_fibonacci_levels`: for each pair index,
the retracement levels `low + ratio * (high - low)` keyed by
`Fib_Down_{i+1}` / `Fib_Up_{i+1}`, pairing the i-th most recent high
with the i-th most recent low. -/
def calculate_fibonacci_levels (highs lows : List Swing) (numLevels : ℕ) :
    List (String × List (String × ℚ)) :=
  if highs.isEmpty || lows.isEmpty then []
  else
    let recentHighs := (sortByDateDesc highs).take numLevels
    let recentLows := (sortByDateDesc lows).take numLevels
    let isHigh := trendIsHigh recentHighs recentLows
    (List.range (min numLevels (min recentHighs.length recentLows.length))).map fun i =>
      let swingHigh := (recentHighs.getD i ⟨0, 0⟩).price
      let swingLow := (recentLows.getD i ⟨0, 0⟩).price
      ((if isHigh then "Fib_Down_" else "Fib_Up_") ++ toString (i + 1),
       fibRatioLabels.zip (fibRatios.map fun r => swingLow + r * (swingHigh - swingLow)))

/-! ### PsychologicalLevels (src/spx_levels/levels/psychological.py) -/

/-- `np.arange(start, stop, step)` for a positive step: values
`start + i * step` for `i < ceil((stop - start) / step)`. -/
def npArange (start stop step : ℚ) : List ℚ :=
  (List.range (Int.toNat ⌈(stop - start) / step⌉)).map fun i => start + i * step

/-- `PsychologicalLevels.find_psychological_levels`: round-number levels
of spacing 100, 50, 25 generated from the floor/ceil-aligned bounds of
the ±nearby_pct window, with 100s taking priority over 50s over 25s. -/
def find_psychological_levels (currentPrice nearbyPct : ℚ) : List (ℚ × String) :=
  let priceRange := currentPrice * nearbyPct / 100
  let minPrice := currentPrice - priceRange
  let maxPrice := currentPrice + priceRange
  let hundreds := npArange ((⌊minPrice / 100⌋ * 100 : ℤ) : ℚ) ((⌈maxPrice / 100⌉ * 100 : ℤ) : ℚ) 100
  let fifties := npArange ((⌊minPrice / 50⌋ * 50 : ℤ) : ℚ) ((⌈maxPrice / 50⌉ * 50 : ℤ) : ℚ) 50
  let twentyfives := npArange ((⌊minPrice / 25⌋ * 25 : ℤ) : ℚ) ((⌈maxPrice / 25⌉ * 25 : ℤ) : ℚ) 25
  (hundreds.map fun l => (l, "Round number (100s)"))
    ++ ((fifties.filter (fun l => decide (l ∉ hundreds))).map fun l => (l, "Round number (50s)"))
    ++ ((twentyfives.filter (fun l => decide (l ∉ hundreds) && decide (l ∉ fifties))).map
          fun l => (l, "Round number (25s)"))

/-! ### VolumeAnalysis (src/spx_levels/analysis/volume.py)

On an empty series the pandas min/max are NaN and
`np.arange(nan, nan, nan)` raises; on a degenerate range
(`min(Low) == max(High)`) the bin size is zero and
`np.arange(x, x, 0)` raises.  Both faults are modelled as `none`. -/

/-- One OHLCV bar, restricted to the fields the volume generator reads. -/
structure Bar where
  low : ℚ
  high : ℚ
  volume : ℚ

/-- Total volume of the bars whose midpoint `(High+Low)/2` falls in
`[lo, hi)`. -/
def binVolume (data : List Bar) (lo hi : ℚ) : ℚ :=
  ((data.filter fun b =>
      decide (lo ≤ (b.high + b.low) / 2) && decide ((b.high + b.low) / 2 < hi)).map
    Bar.volume).sum

/-- `VolumeAnalysis.find_volume_clusters`: 100 equal bins over
`[min(Low), max(High)]`, volume summed per bin, the `numClusters`
highest-volume bin starts labeled "Volume cluster"; `none` models the
exception raised by `np.arange` on an empty series or a zero bin size. -/
def find_volume_clusters (data : List Bar) (numClusters : ℕ) :
    Option (List (ℚ × String)) :=
  match (data.map Bar.low).min?, (data.map Bar.high).max? with
  | some minPrice, some maxPrice =>
    let binSize := (maxPrice - minPrice) / 100
    if binSize = 0 then none
    else
      let bins := npArange minPrice (maxPrice + binSize) binSize
      let volumeByPrice := (List.range (bins.length - 1)).map fun i =>
        (bins.getD i 0, binVolume data (bins.getD i 0) (bins.getD (i + 1) 0))
      some (((volumeByPrice.mergeSort (fun a b => decide (b.2 ≤ a.2))).take numClusters).map
        fun e => (e.1, "Volume cluster"))
  | _, _ => none

/-- `VolumeAnalysis.calculate_volume_profile`: full profile
`(bin_centers, volume_by_price, min_price, max_price, bin_size)`;
`none` models the same `np.arange` faults. -/
def calculate_volume_profile (data : List Bar) (numBins : ℕ) :
    Option (List ℚ × List ℚ × ℚ × ℚ × ℚ) :=
  match (data.map Bar.low).min?, (data.map Bar.high).max? with
  | some minPrice, some maxPrice =>
    let binSize := (maxPrice - minPrice) / (numBins : ℚ)
    if binSize = 0 then none
    else
      let bins := npArange minPrice (maxPrice + binSize) binSize
      let volumeByPrice := (List.range (bins.length - 1)).map fun i =>
        binVolume data (bins.getD i 0) (bins.getD (i + 1) 0)
      let binCenters := (List.range (bins.length - 1)).map fun i =>
        (bins.getD i 0 + bins.getD (i + 1) 0) / 2
      some (binCenters, volumeByPrice, minPrice, maxPrice, binSize)
  | _, _ => none

/-! ### VolatilityAnalysis (src/spx_levels/analysis/volatility.py)

The VIX close series is `Option (List ℚ)` (`none` = no data).  The
20-period rolling mean at the last position is NaN when the series is
shorter than 20; the float comparison `current < NaN` is `False`, so the
"above average" branch is taken. -/

/-- Advisory string of the `current_vix < vix_ma20` branch. -/
def vixBelowStr : String := "VIX below 20-day average - favorable for upside targets."

/-- Advisory string of the other branch. -/
def vixAboveStr : String := "VIX above 20-day average - may need to decrease for upside targets."

/-- `rolling(window=w).mean().iloc[-1]`: `none` (NaN) when fewer than `w`
values exist, else the mean of the last `w`. -/
def rollingMeanLast (xs : List ℚ) (w : ℕ) : Option ℚ :=
  if xs.length < w then none
  else some ((xs.drop (xs.length - w)).sum / (w : ℚ))

/-- `VolatilityAnalysis.analyze_vix`. -/
def analyze_vix (vixClose : Option (List ℚ)) : Option String :=
  match vixClose with
  | none => none
  | some xs =>
    if xs.isEmpty then none
    else
      let currentVix := xs.getLastD 0
      let isBelow :=
        match rollingMeanLast xs 20 with
        | some m => decide (currentVix < m)
        | none => false
      if isBelow then some vixBelowStr else some vixAboveStr

/-! ### MovingAverages.get_ma_levels (src/spx_levels/analysis/moving_averages.py)

The analyzer's data is a set of named columns of float values; a NaN is
`none`.  The code checks `ma in self.data.columns` and then the NaN test
`not (iloc[-1] != iloc[-1])`; `iloc[-1]` on an empty column would raise, modelled
as an overall `none`. -/

/-- Column lookup in the data frame. -/
def lookupCol (cols : List (String × List (Option ℚ))) (name : String) :
    Option (List (Option ℚ)) :=
  (cols.find? (fun c => c.1 == name)).map (fun c => c.2)

/-- Outcome of one loop iteration of `get_ma_levels` for a configured
column: outer `none` = exception, `some none` = no level emitted,
`some (some lv)` = level emitted. -/
def maLevelStep (cols : List (String × List (Option ℚ))) (ma : String) :
    Option (Option (ℚ × String)) :=
  match lookupCol cols ma with
  | none => some none
  | some vs =>
    match vs.getLast? with
    | none => none
    | some none => some none
    | some (some v) => some (some (v, ma ++ " support/resistance"))

/-- `MovingAverages.get_ma_levels` over the configured MA column names. -/
def get_ma_levels (cols : List (String × List (Option ℚ))) (maCols : List String) :
    Option (List (ℚ × String)) :=
  maCols.foldl
    (fun acc ma =>
      match acc, maLevelStep cols ma with
      | some lst, some (some lv) => some (lst ++ [lv])
      | some lst, some none => some lst
      | _, _ => none)
    (some [])

/-! ## Helper lemmas -/

/-- Counting with a fold that conditionally increments equals `countP`. -/
theorem foldl_ite_add_countP (f : String → Bool) (srcs : List String) (n : ℕ) :
    srcs.foldl (fun acc s => if f s then acc + 1 else acc) n = n + srcs.countP f := by
  induction srcs generalizing n with
  | nil => simp
  | cons a l ih =>
    by_cases h : f a
    · simp only [List.foldl_cons, List.countP_cons, h, if_true]
      rw [ih]; omega
    · simp only [List.foldl_cons, List.countP_cons, h, Bool.false_eq_true, if_false]
      rw [ih]; omega

/-! ## Claim theorems -/

/-- Claim C2: classification places a group in the support list iff its
representative price is strictly below the current price, in the
resistance list iff not (price equal to current goes to resistance), and
every group of the input lands in exactly one of the two lists. -/
theorem claim_C2 (grouped : List (ℚ × List String)) (p : ℚ) (g : ℚ × List String) :
    (g ∈ classifySupport grouped p ↔ g ∈ grouped ∧ g.1 < p) ∧
    (g ∈ classifyResistance grouped p ↔ g ∈ grouped ∧ ¬ g.1 < p) ∧
    (g ∈ grouped →
      Xor' (g ∈ classifySupport grouped p) (g ∈ classifyResistance grouped p)) := by
  have hs : g ∈ classifySupport grouped p ↔ g ∈ grouped ∧ g.1 < p := by
    simp [classifySupport, List.mem_filter]
  have hr : g ∈ classifyResistance grouped p ↔ g ∈ grouped ∧ ¬ g.1 < p := by
    simp [classifyResistance, List.mem_filter, not_lt]
  refine ⟨hs, hr, fun hg => ?_⟩
  rcases lt_or_le g.1 p with h | h
  · exact Or.inl ⟨hs.mpr ⟨hg, h⟩, fun hc => (hr.mp hc).2 h⟩
  · exact Or.inr ⟨hr.mpr ⟨hg, not_lt.mpr h⟩, fun hc => not_lt.mpr h (hs.mp hc).2⟩

/-- Witness for C2 at a concrete group list and price. -/
theorem claim_C2_witness :
    (((1 : ℚ), ["a"]) ∈ classifySupport [((1 : ℚ), ["a"])] 2 ↔
        ((1 : ℚ), ["a"]) ∈ [((1 : ℚ), ["a"])] ∧ (1 : ℚ) < 2) ∧
    (((1 : ℚ), ["a"]) ∈ classifyResistance [((1 : ℚ), ["a"])] 2 ↔
        ((1 : ℚ), ["a"]) ∈ [((1 : ℚ), ["a"])] ∧ ¬ (1 : ℚ) < 2) ∧
    (((1 : ℚ), ["a"]) ∈ [((1 : ℚ), ["a"])] →
      Xor' (((1 : ℚ), ["a"]) ∈ classifySupport [((1 : ℚ), ["a"])] 2)
        (((1 : ℚ), ["a"]) ∈ classifyResistance [((1 : ℚ), ["a"])] 2)) :=
  claim_C2 [((1 : ℚ), ["a"])] 2 ((1 : ℚ), ["a"])

/-- Claim C3: a group's strength is the member count, plus 1 per member
whose label contains "Volume" or "price action", plus `fibCount - 1`
when more than one member's label contains "Fibonacci". -/
theorem claim_C3 (sources : List String) :
    strengthOf sources =
      sources.length +
        sources.countP (fun s => containsStr s "Volume" || containsStr s "price action") +
        (if 1 < sources.countP (fun s => containsStr s "Fibonacci")
         then sources.countP (fun s => containsStr s "Fibonacci") - 1 else 0) := by
  simp only [strengthOf, fibCountOf, srcBonus, foldl_ite_add_countP, ←
    List.countP_eq_length_filter]
  split <;> omega

/-- The within-group adjacency relation of the grouping pass. -/
def adjClose (t : ℚ) (a b : ℚ × String) : Prop := closeLevel t a.1 b.1

instance (t : ℚ) (a b : ℚ × String) : Decidable (adjClose t a b) :=
  inferInstanceAs (Decidable (closeLevel t a.1 b.1))

/-- The boundary relation between two consecutive produced groups: the
straddling pair fails the merge test. -/
def boundaryFails (t : ℚ) (g1 g2 : List (ℚ × String)) : Prop :=
  ∀ a ∈ g1.getLast?, ∀ b ∈ g2.head?, ¬ closeLevel t a.1 b.1

/-- Invariant of the grouping loop: starting from a non-empty open group
already satisfying the adjacency invariant, every produced group is
adjacency-close, consecutive groups fail at the boundary, the groups
concatenate back to the input, and the first produced group starts with
the head of the open group. -/
theorem groupGo_spec (t : ℚ) (xs : List (ℚ × String)) :
    ∀ cur, cur ≠ [] → List.Chain' (adjClose t) cur →
      (∀ g ∈ groupGo t cur xs, List.Chain' (adjClose t) g) ∧
      List.Chain' (boundaryFails t) (groupGo t cur xs) ∧
      (groupGo t cur xs).flatten = cur ++ xs ∧
      (∃ g rest, groupGo t cur xs = g :: rest ∧ g.head? = cur.head?) := by
  induction xs with
  | nil =>
    intro cur hne hchain
    refine ⟨?_, ?_, ?_, cur, [], rfl, rfl⟩
    · intro g hg
      simp only [groupGo, List.mem_singleton] at hg
      exact hg ▸ hchain
    · simp [groupGo]
    · simp [groupGo]
  | cons x xs ih =>
    intro cur hne hchain
    by_cases hclose : closeLevel t (cur.getLastD (0, "")).1 x.1
    · have hlast : cur.getLast? = some (cur.getLast hne) := List.getLast?_eq_getLast cur hne
      have hlastD : cur.getLastD (0, "") = cur.getLast hne := by
        rw [List.getLastD_eq_getLast?, hlast]; rfl
      have hchain' : List.Chain' (adjClose t) (cur ++ [x]) := by
        rw [List.chain'_append]
        refine ⟨hchain, List.chain'_singleton x, ?_⟩
        intro a ha b hb
        rw [hlast] at ha
        simp only [Option.mem_def, Option.some.injEq] at ha
        simp only [List.head?_cons, Option.mem_def, Option.some.injEq] at hb
        subst ha; subst hb
        rw [← hlastD]
        exact hclose
      have hres := ih (cur ++ [x]) (by simp) hchain'
      obtain ⟨h1, h2, h3, g, rest, heq, hhead⟩ := hres
      have hgo : groupGo t cur (x :: xs) = groupGo t (cur ++ [x]) xs := by
        simp only [groupGo, if_pos hclose]
      rw [hgo]
      refine ⟨h1, h2, by rw [h3]; simp, g, rest, heq, ?_⟩
      rw [hhead]
      cases cur with
      | nil => exact absurd rfl hne
      | cons c cs => rfl
    · have hres := ih [x] (by simp) (List.chain'_singleton x)
      obtain ⟨h1, h2, h3, g, rest, heq, hhead⟩ := hres
      have hgo : groupGo t cur (x :: xs) = cur :: groupGo t [x] xs := by
        simp only [groupGo, if_neg hclose]
      rw [hgo]
      refine ⟨?_, ?_, ?_, cur, groupGo t [x] xs, rfl, rfl⟩
      · intro g' hg'
        rcases List.mem_cons.mp hg' with h | h
        · exact h ▸ hchain
        · exact h1 g' h
      · rw [heq]
        refine List.Chain'.cons ?_ (heq ▸ h2)
        intro a ha b hb
        rw [List.getLast?_eq_getLast cur hne] at ha
        simp only [Option.mem_def, Option.some.injEq] at ha
        have hgx : g.head? = some x := by rw [hhead]; rfl
        rw [hgx] at hb
        simp only [Option.mem_def, Option.some.injEq] at hb
        subst ha; subst hb
        intro hc
        apply hclose
        rw [List.getLastD_eq_getLast?, List.getLast?_eq_getLast cur hne]
        exact hc
      · rw [List.flatten_cons, h3]; simp

/-- Claim C1: on a price-sorted non-empty level list the grouping pass
with threshold 0.002 produces consecutive groups in which every adjacent
member pair satisfies `|b.price - a.price| / a.price < 0.002` (the merge
test is against the last member added), the pair straddling any group
boundary fails that inequality, and the groups concatenate back to the
input. -/
theorem claim_C1 (allLevels : List (ℚ × String))
    (hsort : List.Chain' (fun a b => a.1 ≤ b.1) allLevels)
    (hne : allLevels ≠ []) :
    (∀ g ∈ groupRuns (2 / 1000) allLevels, List.Chain' (adjClose (2 / 1000)) g) ∧
    List.Chain' (boundaryFails (2 / 1000)) (groupRuns (2 / 1000) allLevels) ∧
    (groupRuns (2 / 1000) allLevels).flatten = allLevels := by
  cases allLevels with
  | nil => exact absurd rfl hne
  | cons x xs =>
    have h := groupGo_spec (2 / 1000) xs [x] (by simp) (List.chain'_singleton x)
    exact ⟨h.1, h.2.1, h.2.2.1⟩

/-- Witness for C1: on a concrete sorted list the first produced group is
adjacency-close throughout. -/
theorem claim_C1_witness :
    List.Chain' (adjClose (2 / 1000)) [((5000 : ℚ), "a"), (5005, "b")] := by
  have hmem : [((5000 : ℚ), "a"), (5005, "b")] ∈
      groupRuns (2 / 1000) [((5000 : ℚ), "a"), (5005, "b"), (5100, "c")] := by
    norm_num [groupRuns, groupGo, closeLevel]
  exact (claim_C1 [((5000 : ℚ), "a"), (5005, "b"), (5100, "c")]
    (by norm_num [List.chain'_cons]) (by simp)).1 [((5000 : ℚ), "a"), (5005, "b")] hmem

/-- Claim C6 (code bug): at current price 400 with nearby_pct 2 the
window is [392, 408], yet the generator also emits 300, 350 and 375 —
all strictly below the window's lower bound 392 — because each arange
start is floor-aligned below min_price; its emitted 100-multiples are
{300, 400}, not {400}. -/
theorem claim_C6_bug :
    find_psychological_levels 400 2 =
      [(300, "Round number (100s)"), (400, "Round number (100s)"),
       (350, "Round number (50s)"), (375, "Round number (25s)")] ∧
    (300 : ℚ) < 400 - 400 * 2 / 100 := by
  constructor
  · have h1 : (⌊(400 - 400 * 2 / 100 : ℚ) / 100⌋ : ℤ) = 3 := by
      rw [Int.floor_eq_iff] <;> norm_num
    have h2 : (⌈(400 + 400 * 2 / 100 : ℚ) / 100⌉ : ℤ) = 5 := by
      rw [Int.ceil_eq_iff] <;> norm_num
    have h3 : (⌊(400 - 400 * 2 / 100 : ℚ) / 50⌋ : ℤ) = 7 := by
      rw [Int.floor_eq_iff] <;> norm_num
    have h4 : (⌈(400 + 400 * 2 / 100 : ℚ) / 50⌉ : ℤ) = 9 := by
      rw [Int.ceil_eq_iff] <;> norm_num
    have h5 : (⌊(400 - 400 * 2 / 100 : ℚ) / 25⌋ : ℤ) = 15 := by
      rw [Int.floor_eq_iff] <;> norm_num
    have h6 : (⌈(400 + 400 * 2 / 100 : ℚ) / 25⌉ : ℤ) = 17 := by
      rw [Int.ceil_eq_iff] <;> norm_num
    have ht : (2 : ℤ).toNat = 2 := rfl
    have e100 : npArange ((3 * 100 : ℤ) : ℚ) ((5 * 100 : ℤ) : ℚ) 100 = [300, 400] := by
      have hc : (⌈(((5 * 100 : ℤ) : ℚ) - ((3 * 100 : ℤ) : ℚ)) / 100⌉ : ℤ) = 2 := by
        rw [Int.ceil_eq_iff] <;> norm_num
      simp only [npArange, hc, ht]
      norm_num [List.range_succ]
    have e50 : npArange ((7 * 50 : ℤ) : ℚ) ((9 * 50 : ℤ) : ℚ) 50 = [350, 400] := by
      have hc : (⌈(((9 * 50 : ℤ) : ℚ) - ((7 * 50 : ℤ) : ℚ)) / 50⌉ : ℤ) = 2 := by
        rw [Int.ceil_eq_iff] <;> norm_num
      simp only [npArange, hc, ht]
      norm_num [List.range_succ]
    have e25 : npArange ((15 * 25 : ℤ) : ℚ) ((17 * 25 : ℤ) : ℚ) 25 = [375, 400] := by
      have hc : (⌈(((17 * 25 : ℤ) : ℚ) - ((15 * 25 : ℤ) : ℚ)) / 25⌉ : ℤ) = 2 := by
        rw [Int.ceil_eq_iff] <;> norm_num
      simp only [npArange, hc, ht]
      norm_num [List.range_succ]
    simp only [find_psychological_levels]
    rw [h1, h2, h3, h4, h5, h6, e100, e50, e25]
    norm_num [List.filter_cons, List.mem_cons]
  · norm_num

/-- Claim C7 (code bug): on an empty series and on a degenerate
single-bar series (Low = High), both volume routines hit the `np.arange`
fault (NaN bounds resp. zero step) modelled as `none`, instead of
returning an empty result. -/
theorem claim_C7_bug :
    find_volume_clusters [] 10 = none ∧
    calculate_volume_profile [] 100 = none ∧
    find_volume_clusters [⟨500, 500, 1000⟩] 10 = none ∧
    calculate_volume_profile [⟨500, 500, 1000⟩] 100 = none := by
  refine ⟨rfl, rfl, ?_, ?_⟩
  · norm_num [find_volume_clusters]
  · norm_num [calculate_volume_profile]

/-- Counterexample to claim C8: a one-element VIX series is too short
for the 20-period average, yet `analyze_vix` returns the "above average"
advisory, not an absent result. -/
theorem claim_C8_counterexample :
    analyze_vix (some [10]) = some vixAboveStr ∧ ([(10 : ℚ)]).length < 20 :=
  ⟨rfl, by norm_num⟩

/-- Claim C8 as amended: the result is absent exactly when the series is
missing or empty; a non-empty series always yields one of the two fixed
strings; with at least 20 values the string is chosen by the strict
comparison against the 20-period mean; with fewer than 20 values the NaN
comparison is false and the "above average" string is returned. -/
theorem claim_C8_amended (o : Option (List ℚ)) :
    (analyze_vix o = none ↔ o = none ∨ o = some []) ∧
    ∀ xs, o = some xs → xs ≠ [] →
      (analyze_vix o = some vixBelowStr ∨ analyze_vix o = some vixAboveStr) ∧
      (20 ≤ xs.length →
        analyze_vix o =
          some (if xs.getLastD 0 < (xs.drop (xs.length - 20)).sum / 20
                then vixBelowStr else vixAboveStr)) ∧
      (xs.length < 20 → analyze_vix o = some vixAboveStr) := by
  cases o with
  | none => simp [analyze_vix]
  | some xs =>
    have hmain : ∀ _ : xs ≠ [],
        (analyze_vix (some xs) = some vixBelowStr ∨
          analyze_vix (some xs) = some vixAboveStr) ∧
        (20 ≤ xs.length →
          analyze_vix (some xs) =
            some (if xs.getLastD 0 < (xs.drop (xs.length - 20)).sum / 20
                  then vixBelowStr else vixAboveStr)) ∧
        (xs.length < 20 → analyze_vix (some xs) = some vixAboveStr) := by
      intro hne
      have hempty : xs.isEmpty = false := by simp [List.isEmpty_iff, hne]
      by_cases hlen : xs.length < 20
      · have hr : rollingMeanLast xs 20 = none := by simp [rollingMeanLast, hlen]
        have habove : analyze_vix (some xs) = some vixAboveStr := by
          simp [analyze_vix, hempty, hr]
        exact ⟨Or.inr habove, fun h20 => absurd h20 (by omega), fun _ => habove⟩
      · have hr : rollingMeanLast xs 20 =
            some ((xs.drop (xs.length - 20)).sum / 20) := by
          simp [rollingMeanLast, hlen]
        refine ⟨?_, fun _ => ?_, fun h => absurd h hlen⟩
        · by_cases hlt : xs.getLast?.getD 0 < (xs.drop (xs.length - 20)).sum / 20
          · exact Or.inl (by simp [analyze_vix, hempty, hr, hlt])
          · exact Or.inr (by simp [analyze_vix, hempty, hr, hlt])
        · by_cases hlt : xs.getLast?.getD 0 < (xs.drop (xs.length - 20)).sum / 20 <;>
            simp [analyze_vix, hempty, hr, hlt]
    constructor
    · constructor
      · intro h
        by_cases hne : xs = []
        · exact Or.inr (by rw [hne])
        · rcases (hmain hne).1 with h' | h' <;> rw [h'] at h <;> exact absurd h (by simp)
      · rintro (h | h)
        · exact absurd h (by simp)
        · have hnil : xs = [] := by
            have := h
            simp only [Option.some.injEq] at this
            exact this
          simp [analyze_vix, hnil]
    · intro ys hys hne
      have hxy : xs = ys := by
        simp only [Option.some.injEq] at hys
        exact hys
      subst hxy
      exact hmain hne

/-- Witness for the amended C8 at a concrete short series. -/
theorem claim_C8_amended_witness :
    analyze_vix (some [(10 : ℚ), 20]) = some vixAboveStr := by
  have h := ((claim_C8_amended (some [(10 : ℚ), 20])).2 [(10 : ℚ), 20] rfl
    (by simp)).2.2
  exact h (by norm_num)

/-- Folding the `get_ma_levels` loop from a live accumulator appends the
per-column emissions, provided no configured column is empty. -/
theorem get_ma_levels_go (cols : List (String × List (Option ℚ)))
    (hne : ∀ c ∈ cols, c.2 ≠ []) :
    ∀ (maCols : List String) (acc : List (ℚ × String)),
      maCols.foldl
        (fun acc ma =>
          match acc, maLevelStep cols ma with
          | some lst, some (some lv) => some (lst ++ [lv])
          | some lst, some none => some lst
          | _, _ => none)
        (some acc) =
      some (acc ++ maCols.filterMap fun ma => (maLevelStep cols ma).getD none) := by
  intro maCols
  induction maCols with
  | nil => intro acc; simp
  | cons ma rest ih =>
    intro acc
    obtain ⟨r, hr⟩ : ∃ r, maLevelStep cols ma = some r := by
      cases hfind : lookupCol cols ma with
      | none => exact ⟨none, by simp [maLevelStep, hfind]⟩
      | some vs =>
        have hvs : vs ≠ [] := by
          unfold lookupCol at hfind
          cases hf : List.find? (fun c => c.1 == ma) cols with
          | none => rw [hf] at hfind; simp at hfind
          | some c =>
            rw [hf] at hfind
            simp only [Option.map, Option.some.injEq] at hfind
            exact hfind ▸ hne c (List.mem_of_find?_eq_some hf)
        cases hy : vs.getLast? with
        | none =>
          rw [List.getLast?_eq_getLast vs hvs] at hy
          exact absurd hy (by simp)
        | some y =>
          cases y with
          | none => exact ⟨none, by simp [maLevelStep, hfind, hy]⟩
          | some v =>
            exact ⟨some (v, ma ++ " support/resistance"), by simp [maLevelStep, hfind, hy]⟩
    cases r with
    | none =>
      simp only [List.foldl_cons, hr, List.filterMap_cons, Option.getD_some]
      rw [ih acc]
    | some lv =>
      simp only [List.foldl_cons, hr, List.filterMap_cons, Option.getD_some]
      rw [ih (acc ++ [lv])]
      simp

/-- Claim C9: with every column of the data non-empty, `get_ma_levels`
raises nothing and emits, in configuration order, exactly one level per
configured MA column that is present and whose latest value is non-NaN;
a per-column emission exists iff the column is present and its last
value is not NaN. -/
theorem claim_C9 (cols : List (String × List (Option ℚ))) (maCols : List String)
    (hne : ∀ c ∈ cols, c.2 ≠ []) :
    get_ma_levels cols maCols =
      some (maCols.filterMap fun ma => (maLevelStep cols ma).getD none) ∧
    ∀ ma : String, ((maLevelStep cols ma).getD none).isSome = true ↔
      ∃ vs, lookupCol cols ma = some vs ∧ ∃ v : ℚ, vs.getLast? = some (some v) := by
  constructor
  · exact get_ma_levels_go cols hne maCols []
  · intro ma
    constructor
    · intro h
      cases hfind : lookupCol cols ma with
      | none => simp [maLevelStep, hfind] at h
      | some vs =>
        cases hl : vs.getLast? with
        | none => simp [maLevelStep, hfind, hl] at h
        | some y =>
          cases y with
          | none => simp [maLevelStep, hfind, hl] at h
          | some v => exact ⟨vs, rfl, v, hl⟩
    · rintro ⟨vs, hvs, v, hv⟩
      simp [maLevelStep, hvs, hv]

/-- Witness for C9 at a concrete data frame: a present MA column with a
non-NaN last value is emitted, one with a NaN last value is skipped. -/
theorem claim_C9_witness :
    get_ma_levels [("MA_50", [some (10 : ℚ), some 11]), ("MA_200", [some 1, none])]
      ["MA_50", "MA_200"] =
      some ((["MA_50", "MA_200"]).filterMap fun ma =>
        (maLevelStep [("MA_50", [some (10 : ℚ), some 11]), ("MA_200", [some 1, none])]
          ma).getD none) :=
  (claim_C9 [("MA_50", [some (10 : ℚ), some 11]), ("MA_200", [some 1, none])]
    ["MA_50", "MA_200"] (by simp)).1

/-- Lookup after overwrite-in-place of an existing key. -/
theorem lookup_map_overwrite (k : ℚ) (v : ℕ) (q : ℚ) :
    ∀ d : List (ℚ × ℕ),
      dictLookup (d.map fun e => if e.1 == k then (k, v) else e) q =
        if q = k then (dictLookup d k).map (fun _ => v) else dictLookup d q
  | [] => by simp [dictLookup]
  | e :: d => by
    have ih := lookup_map_overwrite k v q d
    unfold dictLookup at ih ⊢
    rw [List.map_cons]
    by_cases he : e.1 = k
    · rw [if_pos (by simp [beq_iff_eq, he])]
      by_cases hq : q = k
      · subst hq
        rw [List.find?_cons_of_pos _ (by simp [beq_iff_eq]),
          List.find?_cons_of_pos _ (by simp [beq_iff_eq, he])]
        simp
      · rw [if_neg hq] at ih ⊢
        rw [List.find?_cons_of_neg _ (by simp [beq_iff_eq]; exact fun h => hq h.symm),
          List.find?_cons_of_neg _ (by simp [beq_iff_eq, he]; exact fun h => hq h.symm)]
        exact ih
    · rw [if_neg (by simp [beq_iff_eq, he])]
      by_cases hq : q = k
      · subst hq
        rw [if_pos rfl] at ih ⊢
        rw [List.find?_cons_of_neg _ (by simp [beq_iff_eq]; exact he),
          List.find?_cons_of_neg _ (by simp [beq_iff_eq]; exact he)]
        exact ih
      · rw [if_neg hq] at ih ⊢
        by_cases heq : e.1 = q
        · rw [List.find?_cons_of_pos _ (by simp [beq_iff_eq, heq]),
            List.find?_cons_of_pos _ (by simp [beq_iff_eq, heq])]
        · rw [List.find?_cons_of_neg _ (by simp [beq_iff_eq, heq]),
            List.find?_cons_of_neg _ (by simp [beq_iff_eq, heq])]
          exact ih

/-- `dictInsert` behaves as Python dict assignment under lookup. -/
theorem dictLookup_insert (d : List (ℚ × ℕ)) (k : ℚ) (v : ℕ) (q : ℚ) :
    dictLookup (dictInsert d k v) q = if q = k then some v else dictLookup d q := by
  unfold dictInsert
  by_cases hany : d.any (fun e => e.1 == k)
  · rw [if_pos hany, lookup_map_overwrite]
    by_cases hq : q = k
    · subst hq
      rw [if_pos rfl, if_pos rfl]
      obtain ⟨x, hx, hpx⟩ := List.any_eq_true.mp hany
      have hsome : (List.find? (fun e => e.1 == q) d).isSome := by
        rw [List.find?_isSome]
        exact ⟨x, hx, hpx⟩
      unfold dictLookup
      cases hf : List.find? (fun e => e.1 == q) d with
      | none => rw [hf] at hsome; simp at hsome
      | some c => simp
    · simp [hq]
  · rw [if_neg hany]
    unfold dictLookup
    rw [List.find?_append]
    have hnone : ∀ r : ℚ, r = k → List.find? (fun e => e.1 == r) d = none := by
      intro r hr
      subst hr
      rw [List.find?_eq_none]
      intro x hx hpx
      exact hany (List.any_eq_true.mpr ⟨x, hx, hpx⟩)
    by_cases hq : q = k
    · subst hq
      rw [hnone q rfl, if_pos rfl]
      rw [List.find?_cons_of_pos _ (by simp [beq_iff_eq])]
      simp
    · rw [if_neg hq]
      have hne : ((k, v).1 == q) = false := by
        simp [beq_iff_eq]
        exact fun h => hq h.symm
      cases hf : List.find? (fun e => e.1 == q) d with
      | none => simp [hne]
      | some c => simp

/-- The strength dict maps a price to the strength of the last group in
input order carrying that representative price. -/
theorem lookup_calculate_strength (gs : List (ℚ × List String)) (p : ℚ) :
    dictLookup (calculate_strength gs) p =
      ((gs.filter (fun g => g.1 == p)).getLast?).map (fun g => strengthOf g.2) := by
  induction gs using List.reverseRecOn with
  | nil => rfl
  | append_singleton gs g ih =>
    have hfold : calculate_strength (gs ++ [g]) =
        dictInsert (calculate_strength gs) g.1 (strengthOf g.2) := by
      unfold calculate_strength
      rw [List.foldl_append]
      rfl
    rw [hfold, dictLookup_insert, List.filter_append]
    by_cases hp : p = g.1
    · subst hp
      simp [beq_iff_eq, List.getLast?_concat]
    · have : (g.1 == p) = false := by
        simp [beq_iff_eq]
        exact fun h => hp h.symm
      simp [this, hp, ih]

/-- Claim C10: the key set of the strength dict is exactly the set of
representative prices of the groups; a shared representative price gets
one entry holding the last group's strength (overwrite); and sorting any
sublist of the groups by strength never hits a missing key. -/
theorem claim_C10 (gs : List (ℚ × List String)) :
    (∀ p : ℚ, (dictLookup (calculate_strength gs) p).isSome = true ↔
      p ∈ gs.map Prod.fst) ∧
    (∀ p : ℚ, dictLookup (calculate_strength gs) p =
      ((gs.filter (fun g => g.1 == p)).getLast?).map (fun g => strengthOf g.2)) ∧
    (∀ sub : List (ℚ × List String), sub ⊆ gs →
      (sort_by_strength sub (calculate_strength gs)).isSome = true) := by
  have hkey : ∀ p : ℚ, (dictLookup (calculate_strength gs) p).isSome = true ↔
      p ∈ gs.map Prod.fst := by
    intro p
    rw [lookup_calculate_strength]
    simp only [Option.isSome_map']
    rw [List.getLast?_isSome]
    constructor
    · intro h
      obtain ⟨g, hg⟩ := List.exists_mem_of_ne_nil _ h
      have := List.mem_filter.mp hg
      rcases this with ⟨hmem, hbeq⟩
      have : g.1 = p := by simpa [beq_iff_eq] using hbeq
      exact this ▸ List.mem_map_of_mem Prod.fst hmem
    · intro h
      obtain ⟨g, hmem, hfst⟩ := List.mem_map.mp h
      intro hnil
      have : g ∈ gs.filter (fun g => g.1 == p) :=
        List.mem_filter.mpr ⟨hmem, by simp [beq_iff_eq, hfst]⟩
      rw [hnil] at this
      exact absurd this (List.not_mem_nil g)
  refine ⟨hkey, lookup_calculate_strength gs, ?_⟩
  intro sub hsub
  unfold sort_by_strength
  have hall : sub.all (fun l => (dictLookup (calculate_strength gs) l.1).isSome) = true := by
    rw [List.all_eq_true]
    intro l hl
    exact (hkey l.1).mpr (List.mem_map_of_mem Prod.fst (hsub hl))
  rw [if_pos hall]
  rfl

/-- Witness for C10: sorting the full concrete group list (a sublist of
itself, with a duplicated representative price) succeeds. -/
theorem claim_C10_witness :
    (sort_by_strength [((100 : ℚ), ["Volume cluster"]), ((100 : ℚ), ["x"])]
      (calculate_strength [((100 : ℚ), ["Volume cluster"]), ((100 : ℚ), ["x"])])).isSome =
      true :=
  (claim_C10 [((100 : ℚ), ["Volume cluster"]), ((100 : ℚ), ["x"])]).2.2
    [((100 : ℚ), ["Volume cluster"]), ((100 : ℚ), ["x"])] (List.Subset.refl _)

/-- Clamping a valid index is the identity. -/
theorem clipIdx_coe (n j : ℕ) (h : j < n) : clipIdx n (j : ℤ) = j := by
  unfold clipIdx
  rw [min_eq_left (by omega), max_eq_right (by omega)]
  omega

/-- Clamping a non-positive index gives 0. -/
theorem clipIdx_nonpos (n : ℕ) (z : ℤ) (hn : 0 < n) (hz : z ≤ 0) : clipIdx n z = 0 := by
  unfold clipIdx
  rw [min_eq_left (by omega), max_eq_left (by omega)]
  rfl

/-- Clamping an index at or beyond the top gives `n - 1`. -/
theorem clipIdx_top (n : ℕ) (z : ℤ) (hn : 0 < n) (hz : (n : ℤ) - 1 ≤ z) :
    clipIdx n z = n - 1 := by
  unfold clipIdx
  rw [min_eq_right hz, max_eq_right (by omega)]
  omega

/-- Unfolding of the swing-high flag. -/
theorem flaggedGT_eq_true (xs : List ℚ) (k i : ℕ) :
    flaggedGT xs k i = true ↔
      ∀ s, s < k → getClip xs ((i : ℤ) + ((s : ℤ) + 1)) < xs.getD i 0 ∧
        getClip xs ((i : ℤ) - ((s : ℤ) + 1)) < xs.getD i 0 := by
  unfold flaggedGT
  rw [List.all_eq_true]
  constructor
  · intro h s hs
    have := h s (List.mem_range.mpr hs)
    simpa using this
  · intro h s hs
    have := h s (List.mem_range.mp hs)
    simpa using this

/-- Unfolding of the swing-low flag. -/
theorem flaggedLT_eq_true (xs : List ℚ) (k i : ℕ) :
    flaggedLT xs k i = true ↔
      ∀ s, s < k → xs.getD i 0 < getClip xs ((i : ℤ) + ((s : ℤ) + 1)) ∧
        xs.getD i 0 < getClip xs ((i : ℤ) - ((s : ℤ) + 1)) := by
  unfold flaggedLT
  rw [List.all_eq_true]
  constructor
  · intro h s hs
    have := h s (List.mem_range.mpr hs)
    simpa using this
  · intro h s hs
    have := h s (List.mem_range.mp hs)
    simpa using this

/-- Membership in the argrelextrema maxima index list. -/
theorem mem_relExtremaGT (xs : List ℚ) (k i : ℕ) :
    i ∈ relExtremaGT xs k ↔ i < xs.length ∧ flaggedGT xs k i = true := by
  unfold relExtremaGT
  rw [List.mem_filter, List.mem_range]

/-- Membership in the argrelextrema minima index list. -/
theorem mem_relExtremaLT (xs : List ℚ) (k i : ℕ) :
    i ∈ relExtremaLT xs k ↔ i < xs.length ∧ flaggedLT xs k i = true := by
  unfold relExtremaLT
  rw [List.mem_filter, List.mem_range]

/-- A flagged maximum is interior and strictly dominates every existing
value within distance `k`. -/
theorem flagged_dominates_GT (xs : List ℚ) (k i : ℕ) (hk : 1 ≤ k)
    (hi : i < xs.length) (hf : flaggedGT xs k i = true) :
    0 < i ∧ i + 1 < xs.length ∧
      ∀ j : ℕ, j < xs.length → (i : ℤ) - (k : ℤ) ≤ (j : ℤ) →
        (j : ℤ) ≤ (i : ℤ) + (k : ℤ) → j ≠ i → xs.getD j 0 < xs.getD i 0 := by
  rw [flaggedGT_eq_true] at hf
  have hn : 0 < xs.length := by omega
  have hipos : 0 < i := by
    by_contra h
    have hi0 : i = 0 := by omega
    subst hi0
    have h2 := (hf 0 (by omega)).2
    have hz : ((0 : ℕ) : ℤ) - ((0 : ℕ) : ℤ) - 1 ≤ 0 := by omega
    unfold getClip at h2
    rw [clipIdx_nonpos xs.length _ hn (by push_cast; try omega)] at h2
    exact absurd h2 (lt_irrefl _)
  refine ⟨hipos, ?_, ?_⟩
  · by_contra h
    have hitop : i = xs.length - 1 := by omega
    have h1 := (hf 0 (by omega)).1
    unfold getClip at h1
    rw [clipIdx_top xs.length _ hn (by push_cast; try omega)] at h1
    rw [← hitop] at h1
    exact absurd h1 (lt_irrefl _)
  · intro j hj hjl hjr hne
    rcases Nat.lt_or_ge j i with hlt | hge
    · have hs : i - j - 1 < k := by omega
      have h2 := (hf (i - j - 1) hs).2
      have hz : (i : ℤ) - (((i - j - 1 : ℕ) : ℤ) + 1) = (j : ℤ) := by omega
      rw [hz] at h2
      unfold getClip at h2
      rw [clipIdx_coe xs.length j hj] at h2
      exact h2
    · have hgt : i < j := by omega
      have hs : j - i - 1 < k := by omega
      have h1 := (hf (j - i - 1) hs).1
      have hz : (i : ℤ) + (((j - i - 1 : ℕ) : ℤ) + 1) = (j : ℤ) := by omega
      rw [hz] at h1
      unfold getClip at h1
      rw [clipIdx_coe xs.length j hj] at h1
      exact h1

/-- A flagged minimum is interior and is strictly below every existing
value within distance `k`. -/
theorem flagged_dominates_LT (xs : List ℚ) (k i : ℕ) (hk : 1 ≤ k)
    (hi : i < xs.length) (hf : flaggedLT xs k i = true) :
    0 < i ∧ i + 1 < xs.length ∧
      ∀ j : ℕ, j < xs.length → (i : ℤ) - (k : ℤ) ≤ (j : ℤ) →
        (j : ℤ) ≤ (i : ℤ) + (k : ℤ) → j ≠ i → xs.getD i 0 < xs.getD j 0 := by
  rw [flaggedLT_eq_true] at hf
  have hn : 0 < xs.length := by omega
  have hipos : 0 < i := by
    by_contra h
    have hi0 : i = 0 := by omega
    subst hi0
    have h2 := (hf 0 (by omega)).2
    unfold getClip at h2
    rw [clipIdx_nonpos xs.length _ hn (by push_cast; try omega)] at h2
    exact absurd h2 (lt_irrefl _)
  refine ⟨hipos, ?_, ?_⟩
  · by_contra h
    have hitop : i = xs.length - 1 := by omega
    have h1 := (hf 0 (by omega)).1
    unfold getClip at h1
    rw [clipIdx_top xs.length _ hn (by push_cast; try omega)] at h1
    rw [← hitop] at h1
    exact absurd h1 (lt_irrefl _)
  · intro j hj hjl hjr hne
    rcases Nat.lt_or_ge j i with hlt | hge
    · have hs : i - j - 1 < k := by omega
      have h2 := (hf (i - j - 1) hs).2
      have hz : (i : ℤ) - (((i - j - 1 : ℕ) : ℤ) + 1) = (j : ℤ) := by omega
      rw [hz] at h2
      unfold getClip at h2
      rw [clipIdx_coe xs.length j hj] at h2
      exact h2
    · have hgt : i < j := by omega
      have hs : j - i - 1 < k := by omega
      have h1 := (hf (j - i - 1) hs).1
      have hz : (i : ℤ) + (((j - i - 1 : ℕ) : ℤ) + 1) = (j : ℤ) := by omega
      rw [hz] at h1
      unfold getClip at h1
      rw [clipIdx_coe xs.length j hj] at h1
      exact h1

/-- The smoothed sequence of the C4 counterexample: one small value,
one spike, then a flat run, 42 points in all. -/
def exSeq : List ℚ := 0 :: 10 :: List.replicate 40 1

/-- Counterexample to claim C4: with order 20 the detector flags index 1,
which is within 20 of the left end of the 42-point sequence, because
scipy argrelextrema's default clip mode clamps out-of-range comparison
indices to the boundary instead of rejecting the index. -/
theorem claim_C4_counterexample :
    1 ∈ identify_swing_high_idx exSeq 20 ∧ 1 < 20 ∧ exSeq.length = 42 := by
  refine ⟨by decide, by decide, by decide⟩

/-- Claim C4 as amended: a flagged swing high (resp. low) is strictly
greater (resp. less) than every existing value at distance at most `k`,
and the first and last indices are never flagged; but an index within
`k` of either end can be flagged, the clip mode merely clamping its
missing comparison positions to the boundary. -/
theorem claim_C4_amended (xs : List ℚ) (k : ℕ) (hk : 1 ≤ k) (i : ℕ) :
    (i ∈ identify_swing_high_idx xs k →
      0 < i ∧ i + 1 < xs.length ∧
        ∀ j : ℕ, j < xs.length → (i : ℤ) - (k : ℤ) ≤ (j : ℤ) →
          (j : ℤ) ≤ (i : ℤ) + (k : ℤ) → j ≠ i → xs.getD j 0 < xs.getD i 0) ∧
    (i ∈ identify_swing_low_idx xs k →
      0 < i ∧ i + 1 < xs.length ∧
        ∀ j : ℕ, j < xs.length → (i : ℤ) - (k : ℤ) ≤ (j : ℤ) →
          (j : ℤ) ≤ (i : ℤ) + (k : ℤ) → j ≠ i → xs.getD i 0 < xs.getD j 0) := by
  constructor
  · intro hmem
    unfold identify_swing_high_idx at hmem
    split at hmem
    · exact absurd hmem (List.not_mem_nil i)
    · have h := (mem_relExtremaGT xs k i).mp hmem
      exact flagged_dominates_GT xs k i hk h.1 h.2
  · intro hmem
    unfold identify_swing_low_idx at hmem
    split at hmem
    · exact absurd hmem (List.not_mem_nil i)
    · have h := (mem_relExtremaLT xs k i).mp hmem
      exact flagged_dominates_LT xs k i hk h.1 h.2

/-- Witness for the amended C4: on `[0, 5, 0, 0]` with order 1, index 1
is flagged and the amended theorem yields its interiority. -/
theorem claim_C4_amended_witness :
    1 ∈ identify_swing_high_idx [0, 5, 0, 0] 1 ∧
      0 < 1 ∧ 1 + 1 < ([0, 5, 0, 0] : List ℚ).length := by
  have hmem : 1 ∈ identify_swing_high_idx [0, 5, 0, 0] 1 := by decide
  have h := (claim_C4_amended [0, 5, 0, 0] 1 (by decide) 1).1 hmem
  exact ⟨hmem, h.1, h.2.1⟩

/-- Claim C5: the Fibonacci generator returns empty when either swing
set is empty; otherwise it emits one entry per index
`i < min(N, number of highs, number of lows)`, the entry pairing the
i-th most recent high with the i-th most recent low (each side ranked by
timestamp independently), carrying the levels `low + ratio * (high -
low)` over the seven ratios, and keyed `Fib_Down_{i+1}` when the single
most recent swing overall is a high and `Fib_Up_{i+1}` otherwise — the
same direction for every entry of the run. -/
theorem claim_C5 (highs lows : List Swing) (N : ℕ) :
    (highs = [] ∨ lows = [] → calculate_fibonacci_levels highs lows N = []) ∧
    (highs ≠ [] → lows ≠ [] →
      (calculate_fibonacci_levels highs lows N).length =
        min N (min highs.length lows.length) ∧
      ∀ i, (hi : i < (calculate_fibonacci_levels highs lows N).length) →
        (calculate_fibonacci_levels highs lows N).get ⟨i, hi⟩ =
          ((if trendIsHigh ((sortByDateDesc highs).take N) ((sortByDateDesc lows).take N)
              then "Fib_Down_" else "Fib_Up_") ++ toString (i + 1),
            fibRatioLabels.zip (fibRatios.map fun r =>
              (((sortByDateDesc lows).take N).getD i ⟨0, 0⟩).price +
                r * ((((sortByDateDesc highs).take N).getD i ⟨0, 0⟩).price -
                  (((sortByDateDesc lows).take N).getD i ⟨0, 0⟩).price)))) := by
  constructor
  · intro h
    rcases h with h | h <;> simp [calculate_fibonacci_levels, h]
  · intro h1 h2
    have hif : (highs.isEmpty || lows.isEmpty) = false := by
      simp [List.isEmpty_iff, h1, h2]
    constructor
    · simp [calculate_fibonacci_levels, hif, List.length_take, List.length_mergeSort,
        sortByDateDesc]
      omega
    · intro i hi
      simp only [calculate_fibonacci_levels, hif, Bool.false_eq_true, if_false,
        List.get_eq_getElem, List.getElem_map, List.getElem_range]

/-- Witness for C5 at a one-high, one-low swing set. -/
theorem claim_C5_witness :
    (calculate_fibonacci_levels [⟨5, 110⟩] [⟨4, 90⟩] 3).length =
      min 3 (min ([(⟨5, 110⟩ : Swing)]).length ([(⟨4, 90⟩ : Swing)]).length) :=
  ((claim_C5 [⟨5, 110⟩] [⟨4, 90⟩] 3).2 (by simp) (by simp)).1

end SpxLevels
